import Mathlib

/- Verification of the stratified accuracy / area-estimation engine of
   multilc_accuracy_areaEstimation_uq_interactive.py (Olofsson et al. method).

   Modelling conventions.  The script computes with numpy float64 values.  We
   embed the numerics as exact rationals.  A floating-point value that may be
   non-finite is modelled as `Option ℚ`: `some x` is the finite value `x`, and
   `none` stands for a non-finite float (NaN or an infinity).  The arithmetic
   operations below propagate `none` exactly the way IEEE arithmetic
   propagates non-finite values through the expressions the script evaluates
   (any operation with a non-finite operand is non-finite, and a division by
   zero is non-finite).  No claim we treat distinguishes NaN from ±inf, so a
   single `none` marker is a faithful picture of both. -/

namespace MultiLC

open Finset

/-- Non-finite-propagating addition on modelled floats. -/
def nadd : Option ℚ → Option ℚ → Option ℚ
  | some a, some b => some (a + b)
  | _, _ => none

/-- Non-finite-propagating subtraction on modelled floats. -/
def nsub : Option ℚ → Option ℚ → Option ℚ
  | some a, some b => some (a - b)
  | _, _ => none

/-- Non-finite-propagating multiplication on modelled floats. -/
def nmul : Option ℚ → Option ℚ → Option ℚ
  | some a, some b => some (a * b)
  | _, _ => none

/-- Division on modelled floats: a division by zero yields a non-finite
float (inf or NaN), modelled as `none`; a non-finite operand propagates. -/
def ndiv : Option ℚ → Option ℚ → Option ℚ
  | some a, some b => if b = 0 then none else some (a / b)
  | _, _ => none

/-- Sum of modelled floats over a finite index set: the sum is finite with the
expected value when every summand is finite, and non-finite otherwise.  This
is the behaviour of both numpy sums and Python `sum` on float data. -/
def nsum {α : Type} (s : Finset α) (f : α → Option ℚ) : Option ℚ :=
  if ∀ a ∈ s, (f a).isSome then some (∑ a ∈ s, (f a).getD 0) else none

/-- Embedding of a finite rational into the reals, propagating `none`. -/
def toR : Option ℚ → Option ℝ := Option.map (fun x => (x : ℝ))

/-- Non-finite-propagating multiplication on modelled real-valued floats. -/
def nmulR : Option ℝ → Option ℝ → Option ℝ
  | some a, some b => some (a * b)
  | _, _ => none

/-- Non-finite-propagating addition on modelled real-valued floats. -/
def naddR : Option ℝ → Option ℝ → Option ℝ
  | some a, some b => some (a + b)
  | _, _ => none

/-- Non-finite-propagating subtraction on modelled real-valued floats. -/
def nsubR : Option ℝ → Option ℝ → Option ℝ
  | some a, some b => some (a - b)
  | _, _ => none

/-- Square root as numpy computes it: `np.sqrt` of a NaN or of a negative
number is NaN, otherwise the nonnegative square root. -/
noncomputable def nsqrt : Option ℚ → Option ℝ
  | none => none
  | some x => if x < 0 then none else some (Real.sqrt (x : ℝ))

/-- Row total `error_matrix[i, :].sum()` of a q×q rational matrix. -/
def rowSum {q : ℕ} (em : Fin q → Fin q → ℚ) (i : Fin q) : ℚ := ∑ j, em i j

/-- Column total `error_matrix[:, j].sum()` of a q×q rational matrix. -/
def colSum {q : ℕ} (em : Fin q → Fin q → ℚ) (j : Fin q) : ℚ := ∑ i, em i j

/-- `calculate_weights`: `weights = mapped_pixels / total_pixels` with
`total_pixels = np.sum(mapped_pixels)`.  When the total is zero the float
division yields non-finite values (NaN for 0/0), modelled as `none`. -/
def calculate_weights {q : ℕ} (mapped : Fin q → ℚ) : Fin q → Option ℚ :=
  fun i => ndiv (some (mapped i)) (some (∑ k, mapped k))

/-- `convert_to_area_proportion`: row i of the output is
`weights[i] * (error_matrix[i, :] / row_total)` when `row_total != 0`, and a
row of NaN otherwise. -/
def convert_to_area_proportion {q : ℕ} (em : Fin q → Fin q → ℚ)
    (w : Fin q → ℚ) : Fin q → Fin q → Option ℚ :=
  fun i j =>
    if rowSum em i ≠ 0 then some (w i * (em i j / rowSum em i)) else none

section NLemmas

/-- A finite sum of modelled floats with every summand finite. -/
theorem nsum_eq_some {α : Type} (s : Finset α) (f : α → Option ℚ) (g : α → ℚ)
    (h : ∀ a ∈ s, f a = some (g a)) : nsum s f = some (∑ a ∈ s, g a) := by
  unfold nsum
  rw [if_pos]
  · congr 1
    exact Finset.sum_congr rfl (fun a ha => by rw [h a ha]; rfl)
  · intro a ha
    rw [h a ha]
    rfl

/-- A finite sum of modelled floats with a non-finite summand is non-finite. -/
theorem nsum_eq_none {α : Type} (s : Finset α) (f : α → Option ℚ) {a : α}
    (ha : a ∈ s) (h : f a = none) : nsum s f = none := by
  unfold nsum
  rw [if_neg]
  intro hall
  have := hall a ha
  rw [h] at this
  exact Bool.noConfusion this

/-- Sums of modelled floats agree when the summands agree on the index set. -/
theorem nsum_congr {α : Type} (s : Finset α) (f g : α → Option ℚ)
    (h : ∀ a ∈ s, f a = g a) : nsum s f = nsum s g := by
  unfold nsum
  have h1 : (∀ a ∈ s, (f a).isSome) ↔ (∀ a ∈ s, (g a).isSome) := by
    constructor <;> intro hh a ha
    · rw [← h a ha]; exact hh a ha
    · rw [h a ha]; exact hh a ha
  by_cases hc : ∀ a ∈ s, (f a).isSome
  · rw [if_pos hc, if_pos (h1.mp hc)]
    congr 1
    exact Finset.sum_congr rfl (fun a ha => by rw [h a ha])
  · rw [if_neg hc, if_neg (fun hg => hc (h1.mpr hg))]

/-- Multiplication on modelled floats is associative. -/
theorem nmul_assoc (a b c : Option ℚ) :
    nmul (nmul a b) c = nmul a (nmul b c) := by
  cases a <;> cases b <;> cases c <;> simp [nmul, mul_assoc]

/-- Multiplying into a quotient of modelled floats is the same as dividing
the product: the two groupings agree, including on non-finite inputs. -/
theorem nmul_ndiv_assoc (a b c : Option ℚ) :
    nmul a (ndiv b c) = ndiv (nmul a b) c := by
  cases a <;> cases b <;> cases c <;> simp [nmul, ndiv]
  case some.some.some a b c =>
    by_cases hc : c = 0
    · simp [hc]
    · simp [hc, mul_div_assoc]

end NLemmas

/-- User's accuracy `U_i = p_ii / p_i_dot if p_i_dot != 0 else np.nan` with
`p_ii = area_proportion_matrix[i, i]` and `p_i_dot` the i-th row sum of the
area-proportion matrix.  A NaN row sum compares unequal to 0 in Python, and
the ensuing division then yields NaN, which `ndiv` reproduces. -/
def uAcc {q : ℕ} (ap : Fin q → Fin q → Option ℚ) (i : Fin q) : Option ℚ :=
  if nsum Finset.univ (fun j => ap i j) = some 0 then none
  else ndiv (ap i i) (nsum Finset.univ (fun j => ap i j))

/-- Variance of the user's accuracy for class i as the script computes it:
`U_i * (1 - U_i) / (n_i_dot - 1)` when the row total `n_i_dot` exceeds 1.
The `none` stored in the `n_i_dot ≤ 1` branch records that the script appends
NaN to the SE list there, so that the SE list is the pointwise `nsqrt` image
of this list. -/
def uVar {q : ℕ} (ap : Fin q → Fin q → Option ℚ) (em : Fin q → Fin q → ℚ)
    (i : Fin q) : Option ℚ :=
  if 1 < rowSum em i then
    ndiv (nmul (uAcc ap i) (nsub (some 1) (uAcc ap i))) (some (rowSum em i - 1))
  else none

/-- State of the user's-accuracy loop: the accumulated `user_accuracy` list,
the accumulated per-class variance list (see `uVar`), and the current values
of the loop-local variables `U_i` and `n_i_dot`, which survive the loop and
are read by the producer's-accuracy loop. -/
structure UAState where
  ua : List (Option ℚ)
  var : List (Option ℚ)
  lastU : Option ℚ
  lastN : ℚ

/-- One iteration of the user's-accuracy loop for class i. -/
def uStep {q : ℕ} (ap : Fin q → Fin q → Option ℚ) (em : Fin q → Fin q → ℚ)
    (st : UAState) (i : Fin q) : UAState :=
  { ua := st.ua ++ [uAcc ap i]
    var := st.var ++ [uVar ap em i]
    lastU := uAcc ap i
    lastN := rowSum em i }

/-- The user's-accuracy loop `for i in range(q)` of
`calculate_accuracy_metrics`, modelled as a fold over the class indices. -/
def userLoop {q : ℕ} (ap : Fin q → Fin q → Option ℚ)
    (em : Fin q → Fin q → ℚ) : UAState :=
  (List.finRange q).foldl (uStep ap em) ⟨[], [], none, 0⟩

/-- Producer's accuracy `P_j = p_jj / p_dot_j if p_dot_j != 0 else np.nan`
with `p_dot_j` the j-th column sum of the area-proportion matrix. -/
def pAcc {q : ℕ} (ap : Fin q → Fin q → Option ℚ) (j : Fin q) : Option ℚ :=
  if nsum Finset.univ (fun i => ap i j) = some 0 then none
  else ndiv (ap j j) (nsum Finset.univ (fun i => ap i j))

/-- The producer's-accuracy variance expression of the script, transcribed
with its exact operand structure.  `lastU` and `lastN` are the values of the
variables `U_i` and `n_i_dot` left over from the user's-accuracy loop; the
script reads `n_i_dot` both in the first bracketed term and inside the
`sum(... for i in range(q) if i != j)` generator, never a per-row total. -/
def producerVariance {q : ℕ} (ap : Fin q → Fin q → Option ℚ)
    (em : Fin q → Fin q → ℚ) (lastU : Option ℚ) (lastN : ℚ) (j : Fin q) :
    Option ℚ :=
  nmul (ndiv (some 1) (some (colSum em j ^ 2)))
    (nadd
      (ndiv
        (nmul
          (nmul
            (nmul (some (colSum em j ^ 2))
              (nmul (nsub (some 1) (pAcc ap j)) (nsub (some 1) (pAcc ap j))))
            lastU)
          (nsub (some 1) lastU))
        (some (lastN - 1)))
      (nmul (nmul (pAcc ap j) (pAcc ap j))
        (nsum (Finset.univ.filter (fun i => i ≠ j)) (fun i =>
          ndiv
            (nmul (ndiv (some (em i j)) (some lastN))
              (nsub (some 1) (ndiv (some (em i j)) (some lastN))))
            (some (lastN - 1))))))

/-- Branch marker for the producer's-accuracy SE: the script computes the
variance and its square root only when the column total `n_dot_j` exceeds 1,
and appends NaN otherwise. -/
def pVarBranch {q : ℕ} (ap : Fin q → Fin q → Option ℚ)
    (em : Fin q → Fin q → ℚ) (lastU : Option ℚ) (lastN : ℚ) (j : Fin q) :
    Option ℚ :=
  if 1 < colSum em j then producerVariance ap em lastU lastN j else none

/-- The overall-accuracy variance
`sum(weights[i]**2 * user_accuracy[i] * (1 - user_accuracy[i]) /
(error_matrix[i, :].sum() - 1) for i in range(q) if error_matrix[i, :].sum() > 1)`,
reading the entries of the `user_accuracy` list built by the user loop. -/
def overallVariance {q : ℕ} (em : Fin q → Fin q → ℚ) (w : Fin q → ℚ)
    (ua : List (Option ℚ)) : Option ℚ :=
  nsum (Finset.univ.filter (fun i => 1 < rowSum em i)) (fun i =>
    ndiv
      (nmul (nmul (some (w i ^ 2)) (ua.getD i none))
        (nsub (some 1) (ua.getD i none)))
      (some (rowSum em i - 1)))

/-- Result record of `calculate_accuracy_metrics`.  The per-class lists are
indexed by class; `*_ci_lower`/`*_ci_upper` are the CI bounds `value ∓ z·SE`
and `*_ci_value` the half-width `z·SE`. -/
structure AccuracyMetrics where
  user_accuracy : List (Option ℚ)
  user_accuracy_se : List (Option ℝ)
  user_accuracy_ci_lower : List (Option ℝ)
  user_accuracy_ci_upper : List (Option ℝ)
  user_accuracy_ci_value : List (Option ℝ)
  producer_accuracy : List (Option ℚ)
  producer_accuracy_se : List (Option ℝ)
  producer_accuracy_ci_lower : List (Option ℝ)
  producer_accuracy_ci_upper : List (Option ℝ)
  producer_accuracy_ci_value : List (Option ℝ)
  overall_accuracy : Option ℚ
  overall_accuracy_variance : Option ℚ
  overall_accuracy_se : Option ℝ
  overall_accuracy_ci_lower : Option ℝ
  overall_accuracy_ci_upper : Option ℝ
  overall_accuracy_ci_value : Option ℝ

/-- `calculate_accuracy_metrics`.  The parameter `z` is the two-sided normal
quantile `st.norm.ppf(1 - (1 - confidence_level) / 2)` for the requested
confidence level.  The SE and CI lists are the pointwise images of the
per-class value and variance lists, which is what the loop branches append:
in an `n > 1` branch the SE is the square root of the variance and the CI
fields are `value ∓ z·SE` and `z·SE`, and in an `n ≤ 1` branch every one of
them is NaN, which is `nsqrt none`, `nmulR _ none`, `nsubR _ none`,
`naddR _ none` here. -/
noncomputable def calculate_accuracy_metrics {q : ℕ}
    (ap : Fin q → Fin q → Option ℚ) (em : Fin q → Fin q → ℚ)
    (w : Fin q → ℚ) (z : ℚ) : AccuracyMetrics :=
  let st := userLoop ap em
  let pv : Fin q → Option ℚ := pVarBranch ap em st.lastU st.lastN
  let oaVar := overallVariance em w st.ua
  { user_accuracy := st.ua
    user_accuracy_se := st.var.map nsqrt
    user_accuracy_ci_lower :=
      List.zipWith (fun u v => nsubR (toR u) (nmulR (some (z : ℝ)) (nsqrt v)))
        st.ua st.var
    user_accuracy_ci_upper :=
      List.zipWith (fun u v => naddR (toR u) (nmulR (some (z : ℝ)) (nsqrt v)))
        st.ua st.var
    user_accuracy_ci_value :=
      st.var.map (fun v => nmulR (some (z : ℝ)) (nsqrt v))
    producer_accuracy := (List.finRange q).map (pAcc ap)
    producer_accuracy_se := (List.finRange q).map (fun j => nsqrt (pv j))
    producer_accuracy_ci_lower := (List.finRange q).map (fun j =>
      nsubR (toR (pAcc ap j)) (nmulR (some (z : ℝ)) (nsqrt (pv j))))
    producer_accuracy_ci_upper := (List.finRange q).map (fun j =>
      naddR (toR (pAcc ap j)) (nmulR (some (z : ℝ)) (nsqrt (pv j))))
    producer_accuracy_ci_value := (List.finRange q).map (fun j =>
      nmulR (some (z : ℝ)) (nsqrt (pv j)))
    overall_accuracy := nsum Finset.univ (fun i => ap i i)
    overall_accuracy_variance := oaVar
    overall_accuracy_se := nsqrt oaVar
    overall_accuracy_ci_lower :=
      nsubR (toR (nsum Finset.univ (fun i => ap i i)))
        (nmulR (some (z : ℝ)) (nsqrt oaVar))
    overall_accuracy_ci_upper :=
      naddR (toR (nsum Finset.univ (fun i => ap i i)))
        (nmulR (some (z : ℝ)) (nsqrt oaVar))
    overall_accuracy_ci_value := nmulR (some (z : ℝ)) (nsqrt oaVar) }

/-- `calculate_error_adjusted_area`: per-class adjusted area
`total_area * area_proportion_matrix.sum(axis=0)`. -/
def calculate_error_adjusted_area {q : ℕ} (ap : Fin q → Fin q → Option ℚ)
    (totalArea : ℚ) : Fin q → Option ℚ :=
  fun j => nmul (some totalArea) (nsum Finset.univ (fun i => ap i j))

/-- The accumulation of `se_j_squared` in `calculate_standard_error_and_ci`:
`se_j_squared = 0`, then for each row i with `n_i_dot > 1` add
`weights[i]**2 * (n_ij/n_i_dot) * (1 - n_ij/n_i_dot) / (n_i_dot - 1)`; rows
with `n_i_dot ≤ 1` leave the accumulator untouched. -/
def seSq {q : ℕ} (em : Fin q → Fin q → ℚ) (w : Fin q → ℚ) (j : Fin q) : ℚ :=
  (List.finRange q).foldl (fun acc i =>
    if 1 < rowSum em i then
      acc + w i ^ 2 * (em i j / rowSum em i) * (1 - em i j / rowSum em i) /
        (rowSum em i - 1)
    else acc) 0

/-- Result record of `calculate_standard_error_and_ci`: per-class area
standard errors and CI bounds. -/
structure AreaSECI where
  standard_errors : List (Option ℝ)
  confidence_intervals : List (Option ℝ × Option ℝ)

/-- `calculate_standard_error_and_ci`.  For each class j the per-proportion
SE is `sqrt(se_j_squared)`, the area SE is `total_area` times it, and the CI
is the area estimate plus or minus `z` times the area SE, where `z` models
`st.norm.ppf(1 - (1 - confidence_level) / 2)`. -/
noncomputable def calculate_standard_error_and_ci {q : ℕ}
    (em : Fin q → Fin q → ℚ) (w : Fin q → ℚ) (est : Fin q → Option ℚ)
    (totalArea : ℚ) (z : ℚ) : AreaSECI :=
  let ase : Fin q → Option ℝ :=
    fun j => nmulR (some (totalArea : ℝ)) (nsqrt (some (seSq em w j)))
  { standard_errors := (List.finRange q).map ase
    confidence_intervals := (List.finRange q).map (fun j =>
      (nsubR (toR (est j)) (nmulR (some (z : ℝ)) (ase j)),
       naddR (toR (est j)) (nmulR (some (z : ℝ)) (ase j)))) }

section LoopLemmas

variable {q : ℕ}

/-- The user loop appends the classes' user's-accuracy values in order. -/
theorem foldl_uStep_ua (ap : Fin q → Fin q → Option ℚ)
    (em : Fin q → Fin q → ℚ) (l : List (Fin q)) (st : UAState) :
    (l.foldl (uStep ap em) st).ua = st.ua ++ l.map (uAcc ap) := by
  induction l generalizing st with
  | nil => simp
  | cons a t ih => simp [uStep, ih]

/-- The user loop appends the classes' variance entries in order. -/
theorem foldl_uStep_var (ap : Fin q → Fin q → Option ℚ)
    (em : Fin q → Fin q → ℚ) (l : List (Fin q)) (st : UAState) :
    (l.foldl (uStep ap em) st).var = st.var ++ l.map (uVar ap em) := by
  induction l generalizing st with
  | nil => simp
  | cons a t ih => simp [uStep, ih]

/-- After a nonempty run of the user loop, the loop variable `U_i` holds the
user's accuracy of the last class processed. -/
theorem foldl_uStep_lastU (ap : Fin q → Fin q → Option ℚ)
    (em : Fin q → Fin q → ℚ) (l : List (Fin q)) (st : UAState) (h : l ≠ []) :
    (l.foldl (uStep ap em) st).lastU = uAcc ap (l.getLast h) := by
  induction l generalizing st with
  | nil => exact absurd rfl h
  | cons a t ih =>
    cases t with
    | nil => simp [uStep]
    | cons b u =>
      rw [List.foldl_cons, ih _ (List.cons_ne_nil b u),
        List.getLast_cons (List.cons_ne_nil b u)]

/-- After a nonempty run of the user loop, the loop variable `n_i_dot` holds
the error-matrix row total of the last class processed. -/
theorem foldl_uStep_lastN (ap : Fin q → Fin q → Option ℚ)
    (em : Fin q → Fin q → ℚ) (l : List (Fin q)) (st : UAState) (h : l ≠ []) :
    (l.foldl (uStep ap em) st).lastN = rowSum em (l.getLast h) := by
  induction l generalizing st with
  | nil => exact absurd rfl h
  | cons a t ih =>
    cases t with
    | nil => simp [uStep]
    | cons b u =>
      rw [List.foldl_cons, ih _ (List.cons_ne_nil b u),
        List.getLast_cons (List.cons_ne_nil b u)]

/-- The user_accuracy list is the tabulation of `uAcc` over the classes. -/
theorem userLoop_ua (ap : Fin q → Fin q → Option ℚ)
    (em : Fin q → Fin q → ℚ) :
    (userLoop ap em).ua = List.ofFn (uAcc ap) := by
  unfold userLoop
  rw [foldl_uStep_ua, List.ofFn_eq_map, List.nil_append]

/-- The variance list is the tabulation of `uVar` over the classes. -/
theorem userLoop_var (ap : Fin q → Fin q → Option ℚ)
    (em : Fin q → Fin q → ℚ) :
    (userLoop ap em).var = List.ofFn (uVar ap em) := by
  unfold userLoop
  rw [foldl_uStep_var, List.ofFn_eq_map, List.nil_append]

/-- Reading entry i of a tabulated per-class list gives the value at i. -/
theorem getD_ofFn {α : Type} (f : Fin q → α) (i : Fin q) (d : α) :
    (List.ofFn f).getD i d = f i := by
  rw [List.getD_eq_getElem (List.ofFn f) d (by simp),
    List.getElem_ofFn]

/-- Entry i of the user_accuracy list is the user's accuracy of class i. -/
theorem userLoop_ua_getD (ap : Fin q → Fin q → Option ℚ)
    (em : Fin q → Fin q → ℚ) (i : Fin q) :
    (userLoop ap em).ua.getD i none = uAcc ap i := by
  rw [userLoop_ua, getD_ofFn]

/-- When q ≥ 1, the leftover loop variable `U_i` read by the producer's loop
is the user's accuracy of the last class, index q-1. -/
theorem userLoop_lastU (ap : Fin q → Fin q → Option ℚ)
    (em : Fin q → Fin q → ℚ) (hq : 0 < q) :
    (userLoop ap em).lastU = uAcc ap ⟨q - 1, Nat.sub_lt hq Nat.one_pos⟩ := by
  unfold userLoop
  have hne : List.finRange q ≠ [] := by
    simp [List.finRange_eq_nil]
    omega
  rw [foldl_uStep_lastU ap em _ _ hne]
  congr 1
  rw [List.getLast_eq_getElem, List.getElem_finRange]
  simp [Fin.ext_iff]

/-- When q ≥ 1, the leftover loop variable `n_i_dot` read by the producer's
loop is the error-matrix row total of the last class, index q-1. -/
theorem userLoop_lastN (ap : Fin q → Fin q → Option ℚ)
    (em : Fin q → Fin q → ℚ) (hq : 0 < q) :
    (userLoop ap em).lastN = rowSum em ⟨q - 1, Nat.sub_lt hq Nat.one_pos⟩ := by
  unfold userLoop
  have hne : List.finRange q ≠ [] := by
    simp [List.finRange_eq_nil]
    omega
  rw [foldl_uStep_lastN ap em _ _ hne]
  congr 1
  rw [List.getLast_eq_getElem, List.getElem_finRange]
  simp [Fin.ext_iff]

end LoopLemmas

/-- The producer's-accuracy variance formula the spec displays, read the way
claim C1 reads it: the first bracketed term takes the leftover user-loop
values `lastU` and `lastN`, while the sample size inside the Σ over i ≠ j is
the row total `rowSum em i` of the contributing row. -/
def producerVarianceClaimed {q : ℕ} (ap : Fin q → Fin q → Option ℚ)
    (em : Fin q → Fin q → ℚ) (lastU : Option ℚ) (lastN : ℚ) (j : Fin q) :
    Option ℚ :=
  nmul (ndiv (some 1) (some (colSum em j ^ 2)))
    (nadd
      (nmul
        (nmul (some (colSum em j ^ 2))
          (nmul (nsub (some 1) (pAcc ap j)) (nsub (some 1) (pAcc ap j))))
        (ndiv (nmul lastU (nsub (some 1) lastU)) (some (lastN - 1))))
      (nmul (nmul (pAcc ap j) (pAcc ap j))
        (nsum (Finset.univ.filter (fun i => i ≠ j)) (fun i =>
          ndiv
            (nmul (ndiv (some (em i j)) (some (rowSum em i)))
              (nsub (some 1) (ndiv (some (em i j)) (some (rowSum em i)))))
            (some (rowSum em i - 1))))))

/-- The spec's producer's-accuracy variance formula with the Σ-term sample
sizes amended to the leftover user-loop row total `lastN` as well, so that
every sample-size occurrence is the leftover value. -/
def producerVarianceAmended {q : ℕ} (ap : Fin q → Fin q → Option ℚ)
    (em : Fin q → Fin q → ℚ) (lastU : Option ℚ) (lastN : ℚ) (j : Fin q) :
    Option ℚ :=
  nmul (ndiv (some 1) (some (colSum em j ^ 2)))
    (nadd
      (nmul
        (nmul (some (colSum em j ^ 2))
          (nmul (nsub (some 1) (pAcc ap j)) (nsub (some 1) (pAcc ap j))))
        (ndiv (nmul lastU (nsub (some 1) lastU)) (some (lastN - 1))))
      (nmul (nmul (pAcc ap j) (pAcc ap j))
        (nsum (Finset.univ.filter (fun i => i ≠ j)) (fun i =>
          ndiv
            (nmul (ndiv (some (em i j)) (some lastN))
              (nsub (some 1) (ndiv (some (em i j)) (some lastN))))
            (some (lastN - 1))))))

/-- The spec's overall-accuracy variance: the weighted per-class variance
terms `weight[i]² * U_i(1-U_i)/(n_i - 1)` summed only over classes whose row
sample size exceeds 1. -/
def specOverallVariance {q : ℕ} (ap : Fin q → Fin q → Option ℚ)
    (em : Fin q → Fin q → ℚ) (w : Fin q → ℚ) : Option ℚ :=
  nsum (Finset.univ.filter (fun i => 1 < rowSum em i)) (fun i =>
    nmul (some (w i ^ 2))
      (ndiv (nmul (uAcc ap i) (nsub (some 1) (uAcc ap i)))
        (some (rowSum em i - 1))))

section FieldLemmas

variable {q : ℕ} (ap : Fin q → Fin q → Option ℚ) (em : Fin q → Fin q → ℚ)
variable (w : Fin q → ℚ) (z : ℚ)

/-- The user_accuracy field is the list built by the user loop. -/
theorem cam_user_accuracy :
    (calculate_accuracy_metrics ap em w z).user_accuracy
      = (userLoop ap em).ua := rfl

/-- The user SE field is the pointwise square root of the variance list. -/
theorem cam_user_se :
    (calculate_accuracy_metrics ap em w z).user_accuracy_se
      = (userLoop ap em).var.map nsqrt := rfl

/-- The user CI half-width field scales the SEs by the z-score. -/
theorem cam_user_civ :
    (calculate_accuracy_metrics ap em w z).user_accuracy_ci_value
      = (userLoop ap em).var.map (fun v => nmulR (some (z : ℝ)) (nsqrt v)) :=
  rfl

/-- The producer SE field is the per-column branch value's square root. -/
theorem cam_producer_se :
    (calculate_accuracy_metrics ap em w z).producer_accuracy_se
      = (List.finRange q).map (fun j =>
          nsqrt (pVarBranch ap em (userLoop ap em).lastU
            (userLoop ap em).lastN j)) := rfl

/-- The overall-accuracy variance field. -/
theorem cam_overall_variance :
    (calculate_accuracy_metrics ap em w z).overall_accuracy_variance
      = overallVariance em w (userLoop ap em).ua := rfl

/-- The overall-accuracy SE field. -/
theorem cam_overall_se :
    (calculate_accuracy_metrics ap em w z).overall_accuracy_se
      = nsqrt (overallVariance em w (userLoop ap em).ua) := rfl

/-- The overall-accuracy CI half-width field. -/
theorem cam_overall_civ :
    (calculate_accuracy_metrics ap em w z).overall_accuracy_ci_value
      = nmulR (some (z : ℝ))
          (nsqrt (overallVariance em w (userLoop ap em).ua)) := rfl

/-- The standard_errors field of the area SE/CI computation. -/
theorem seci_standard_errors (est : Fin q → Option ℚ) (A : ℚ) :
    (calculate_standard_error_and_ci em w est A z).standard_errors
      = (List.finRange q).map (fun j =>
          nmulR (some (A : ℝ)) (nsqrt (some (seSq em w j)))) := rfl

end FieldLemmas

/-- A fold that conditionally accumulates is the sum of the filtered
contributions. -/
theorem foldl_if_add {α : Type} (p : α → Prop) [DecidablePred p] (g : α → ℚ)
    (l : List α) (acc : ℚ) :
    l.foldl (fun a i => if p i then a + g i else a) acc
      = acc + (l.map (fun i => if p i then g i else 0)).sum := by
  induction l generalizing acc with
  | nil => simp
  | cons a t ih =>
    by_cases hp : p a <;> simp [hp, ih, add_assoc]

section NsumEval

/-- The empty sum of modelled floats is a finite zero. -/
theorem nsum_empty {α : Type} (f : α → Option ℚ) :
    nsum (∅ : Finset α) f = some 0 := by
  unfold nsum
  simp

/-- A singleton sum of modelled floats is the single summand. -/
theorem nsum_singleton {α : Type} (a : α) (f : α → Option ℚ) :
    nsum {a} f = f a := by
  rcases h : f a with _ | v <;> unfold nsum <;> simp [h]

/-- Peeling one element off a sum of modelled floats. -/
theorem nsum_insert {α : Type} [DecidableEq α] {a : α} {s : Finset α}
    (ha : a ∉ s) (f : α → Option ℚ) :
    nsum (insert a s) f = nadd (f a) (nsum s f) := by
  rcases h : f a with _ | v
  · rw [nsum_eq_none (insert a s) f (Finset.mem_insert_self a s) h]
    cases hx : nsum s f <;> simp [nadd]
  · by_cases hall : ∀ x ∈ s, (f x).isSome
    · have hins : ∀ x ∈ insert a s, (f x).isSome := by
        intro x hx
        rcases Finset.mem_insert.mp hx with rfl | hxs
        · rw [h]; rfl
        · exact hall x hxs
      unfold nsum
      rw [if_pos hins, if_pos hall, Finset.sum_insert ha, h]
      simp [nadd]
    · have hnone : nsum s f = none := by unfold nsum; exact if_neg hall
      rw [hnone]
      have hc : ¬ ∀ x ∈ insert a s, (f x).isSome := fun hc =>
        hall fun x hx => hc x (Finset.mem_insert_of_mem hx)
      unfold nsum
      rw [if_neg hc]
      simp [nadd]

/-- A sum of modelled floats over the two classes of a 2-class problem. -/
theorem nsum_univ_two (f : Fin 2 → Option ℚ) :
    nsum Finset.univ f = nadd (f 0) (f 1) := by
  have h : (Finset.univ : Finset (Fin 2)) = insert 0 {1} := by decide
  rw [h, nsum_insert (by decide), nsum_singleton]

end NsumEval

section ConcreteInputs

/-- Concrete 2×2 error matrix with one positive-total row and one zero row. -/
def emA : Fin 2 → Fin 2 → ℚ := ![![1, 1], ![0, 0]]

/-- Concrete all-ones 2×2 error matrix. -/
def emB : Fin 2 → Fin 2 → ℚ := ![![1, 1], ![1, 1]]

/-- Concrete diagonal 2×2 error matrix with row totals 2 and 2. -/
def emC : Fin 2 → Fin 2 → ℚ := ![![2, 0], ![0, 2]]

/-- Concrete 2×2 error matrix with all row totals positive. -/
def emD : Fin 2 → Fin 2 → ℚ := ![![1, 1], ![1, 3]]

/-- Concrete 2×2 error matrix whose first row has total exactly 1. -/
def emE : Fin 2 → Fin 2 → ℚ := ![![1, 0], ![0, 1]]

/-- Concrete 2×2 error matrix with distinct row totals 2 and 3. -/
def emF : Fin 2 → Fin 2 → ℚ := ![![1, 1], ![0, 3]]

/-- Concrete weights (0, 1): class 0 carries no area weight. -/
def wB : Fin 2 → ℚ := ![0, 1]

/-- Concrete equal weights (1/2, 1/2). -/
def wHalf : Fin 2 → ℚ := ![1/2, 1/2]

/-- Concrete mapped-pixel counts (3, 1), total 4. -/
def mappedA : Fin 2 → ℚ := ![3, 1]

/-- Concrete all-zero mapped-pixel counts. -/
def mappedZ : Fin 2 → ℚ := ![0, 0]

end ConcreteInputs

/-- C5: for every q×q error matrix and weights, a row of the output of
`convert_to_area_proportion` with positive total is the weight times the
row's sample shares and sums to exactly that weight, while a row with total
zero is undefined (NaN) in every cell. -/
theorem convert_row_spec {q : ℕ} (em : Fin q → Fin q → ℚ) (w : Fin q → ℚ)
    (i : Fin q) :
    (0 < rowSum em i →
      (∀ j, convert_to_area_proportion em w i j
          = some (w i * (em i j / rowSum em i)))
      ∧ nsum Finset.univ (convert_to_area_proportion em w i) = some (w i))
    ∧ (rowSum em i = 0 →
      ∀ j, convert_to_area_proportion em w i j = none) := by
  constructor
  · intro h
    have hne : rowSum em i ≠ 0 := ne_of_gt h
    refine ⟨fun j => by simp [convert_to_area_proportion, hne], ?_⟩
    rw [nsum_eq_some _ _ (fun j => w i * (em i j / rowSum em i))
      (fun j _ => by simp [convert_to_area_proportion, hne])]
    congr 1
    rw [← Finset.mul_sum, ← Finset.sum_div]
    have hrs : (∑ j, em i j) = rowSum em i := rfl
    rw [hrs, div_self hne, mul_one]
  · intro h j
    simp [convert_to_area_proportion, h]

/-- Witness for C5 at a concrete input: row 0 of `emA` has total 2 and row 1
has total 0. -/
theorem convert_row_spec_witness :
    ((0:ℚ) < rowSum emA 0)
    ∧ ((∀ j, convert_to_area_proportion emA wHalf 0 j
          = some (wHalf 0 * (emA 0 j / rowSum emA 0)))
      ∧ nsum Finset.univ (convert_to_area_proportion emA wHalf 0)
          = some (wHalf 0))
    ∧ (rowSum emA 1 = 0)
    ∧ (∀ j, convert_to_area_proportion emA wHalf 1 j = none) :=
  ⟨by norm_num [rowSum, Fin.sum_univ_two, emA],
    (convert_row_spec emA wHalf 0).1 (by norm_num [rowSum, Fin.sum_univ_two, emA]),
    by norm_num [rowSum, Fin.sum_univ_two, emA],
    (convert_row_spec emA wHalf 1).2 (by norm_num [rowSum, Fin.sum_univ_two, emA])⟩

/-- C6: `calculate_weights` divides each mapped-pixel count by the total;
with nonnegative counts of positive total the weights are defined and sum to
1, and with total 0 every weight is undefined (non-finite). -/
theorem calculate_weights_spec {q : ℕ} (mapped : Fin q → ℚ) :
    ((∀ i, 0 ≤ mapped i) → 0 < ∑ k, mapped k →
      (∀ i, calculate_weights mapped i = some (mapped i / ∑ k, mapped k))
      ∧ nsum Finset.univ (calculate_weights mapped) = some 1)
    ∧ ((∑ k, mapped k) = 0 → ∀ i, calculate_weights mapped i = none) := by
  constructor
  · intro _ ht
    have hne : (∑ k, mapped k) ≠ 0 := ne_of_gt ht
    refine ⟨fun i => by simp [calculate_weights, ndiv, hne], ?_⟩
    rw [nsum_eq_some _ _ (fun i => mapped i / ∑ k, mapped k)
      (fun i _ => by simp [calculate_weights, ndiv, hne])]
    rw [← Finset.sum_div, div_self hne]
  · intro h i
    simp [calculate_weights, ndiv, h]

/-- Witness for C6 at concrete inputs: counts (3, 1) with total 4, and the
all-zero counts. -/
theorem calculate_weights_spec_witness :
    ((∀ i, 0 ≤ mappedA i) ∧ (0:ℚ) < ∑ k, mappedA k)
    ∧ ((∀ i, calculate_weights mappedA i = some (mappedA i / ∑ k, mappedA k))
      ∧ nsum Finset.univ (calculate_weights mappedA) = some 1)
    ∧ ((∑ k, mappedZ k) = 0)
    ∧ (∀ i, calculate_weights mappedZ i = none) :=
  ⟨⟨by norm_num [Fin.forall_fin_two, mappedA],
      by norm_num [Fin.sum_univ_two, mappedA]⟩,
    (calculate_weights_spec mappedA).1
      (by norm_num [Fin.forall_fin_two, mappedA])
      (by norm_num [Fin.sum_univ_two, mappedA]),
    by norm_num [Fin.sum_univ_two, mappedZ],
    (calculate_weights_spec mappedZ).2 (by norm_num [Fin.sum_univ_two, mappedZ])⟩

/-- Helper: with a nonzero row total and a nonzero weight, the user's
accuracy computed from the pipeline's area-proportion matrix is the
sample-count ratio of the error-matrix row. -/
theorem uAcc_convert_eq_ratio {q : ℕ} (em : Fin q → Fin q → ℚ)
    (w : Fin q → ℚ) (i : Fin q) (hne : rowSum em i ≠ 0) (hw : w i ≠ 0) :
    uAcc (convert_to_area_proportion em w) i
      = some (em i i / rowSum em i) := by
  have hsum : nsum Finset.univ (fun j => convert_to_area_proportion em w i j)
      = some (w i) := by
    rw [nsum_eq_some _ _ (fun j => w i * (em i j / rowSum em i))
      (fun j _ => by simp [convert_to_area_proportion, hne])]
    congr 1
    rw [← Finset.mul_sum, ← Finset.sum_div]
    have hrs2 : (∑ j, em i j) = rowSum em i := rfl
    rw [hrs2, div_self hne, mul_one]
  unfold uAcc
  rw [hsum, if_neg (by simp [hw])]
  have hcell : convert_to_area_proportion em w i i
      = some (w i * (em i i / rowSum em i)) := by
    simp [convert_to_area_proportion, hne]
  rw [hcell]
  simp [ndiv, hw, mul_div_cancel_left₀]

/-- C3 (amended): the user's accuracy that `calculate_accuracy_metrics`
computes from the area-proportion matrix equals the sample-count ratio
`error_matrix[i][i] / rowSum(error_matrix[i])` whenever the row total is
positive and the class weight is nonzero.  (With weight 0 the computed
accuracy is undefined even though the sample ratio exists; see the
counterexample.) -/
theorem user_accuracy_ratio {q : ℕ} (em : Fin q → Fin q → ℚ)
    (w : Fin q → ℚ) (z : ℚ) (i : Fin q) (hrs : 0 < rowSum em i)
    (hw : w i ≠ 0) :
    (calculate_accuracy_metrics (convert_to_area_proportion em w) em w
        z).user_accuracy.getD i none
      = some (em i i / rowSum em i) := by
  rw [cam_user_accuracy, userLoop_ua_getD]
  exact uAcc_convert_eq_ratio em w i (ne_of_gt hrs) hw

/-- C3 counterexample: with the all-ones matrix `emB` and weights (0, 1),
class 0 has row total 2 > 0 and sample-count ratio 1/2, yet the user's
accuracy computed by `calculate_accuracy_metrics` is undefined (NaN). -/
theorem user_accuracy_ratio_cex :
    (0:ℚ) < rowSum emB 0
    ∧ emB 0 0 / rowSum emB 0 = 1/2
    ∧ (calculate_accuracy_metrics (convert_to_area_proportion emB wB) emB wB
        2).user_accuracy.getD ((0 : Fin 2) : ℕ) none = none := by
  refine ⟨by norm_num [rowSum, Fin.sum_univ_two, emB],
    by norm_num [rowSum, Fin.sum_univ_two, emB], ?_⟩
  rw [cam_user_accuracy, userLoop_ua_getD]
  have hcond : nsum Finset.univ
      (fun j => convert_to_area_proportion emB wB 0 j) = some 0 := by
    rw [nsum_univ_two]
    norm_num [convert_to_area_proportion, rowSum, Fin.sum_univ_two, emB, wB,
      nadd]
  unfold uAcc
  rw [if_pos hcond]

/-- Witness for the amended C3 at `emB` with equal weights: class 0's
computed user's accuracy equals the sample ratio. -/
theorem user_accuracy_ratio_witness :
    ((0:ℚ) < rowSum emB 0 ∧ wHalf 0 ≠ 0)
    ∧ (calculate_accuracy_metrics (convert_to_area_proportion emB wHalf) emB
        wHalf 2).user_accuracy.getD ((0 : Fin 2) : ℕ) none
        = some (emB 0 0 / rowSum emB 0) :=
  ⟨⟨by norm_num [rowSum, Fin.sum_univ_two, emB], by norm_num [wHalf]⟩,
    user_accuracy_ratio emB wHalf 2 0
      (by norm_num [rowSum, Fin.sum_univ_two, emB]) (by norm_num [wHalf])⟩

/-- C4: the overall accuracy is the trace (diagonal sum) of the
area-proportion matrix, and the overall-accuracy variance is the spec's
weighted sum `Σ weight[i]² · U_i(1-U_i)/(n_i - 1)` restricted to classes
with row sample size above 1 — classes with row total at most 1 are omitted
from the summation index set. -/
theorem overall_accuracy_spec {q : ℕ} (ap : Fin q → Fin q → Option ℚ)
    (em : Fin q → Fin q → ℚ) (w : Fin q → ℚ) (z : ℚ) :
    (calculate_accuracy_metrics ap em w z).overall_accuracy
      = nsum Finset.univ (fun i => ap i i)
    ∧ (calculate_accuracy_metrics ap em w z).overall_accuracy_variance
      = specOverallVariance ap em w := by
  refine ⟨rfl, ?_⟩
  rw [cam_overall_variance]
  unfold overallVariance specOverallVariance
  apply nsum_congr
  intro i _
  rw [userLoop_ua_getD, nmul_ndiv_assoc, nmul_assoc]

/-- C2 counterexample: with error matrix `emC` and weights (0, 1), class 0
has an undefined user's accuracy (its area-proportion row is all zero) while
its row sample count is 2 > 1; the summation's exclusion rule does not
exclude it, and the overall-accuracy variance comes out NaN rather than a
defined real number. -/
theorem overall_variance_defined_cex :
    uAcc (convert_to_area_proportion emC wB) 0 = none
    ∧ (1:ℚ) < rowSum emC 0
    ∧ (calculate_accuracy_metrics (convert_to_area_proportion emC wB) emC wB
        2).overall_accuracy_variance = none := by
  have hu : uAcc (convert_to_area_proportion emC wB) 0 = none := by
    have hcond : nsum Finset.univ
        (fun j => convert_to_area_proportion emC wB 0 j) = some 0 := by
      rw [nsum_univ_two]
      norm_num [convert_to_area_proportion, rowSum, Fin.sum_univ_two, emC,
        wB, nadd]
    unfold uAcc
    rw [if_pos hcond]
  refine ⟨hu, by norm_num [rowSum, Fin.sum_univ_two, emC], ?_⟩
  rw [cam_overall_variance]
  unfold overallVariance
  apply nsum_eq_none _ _ (Finset.mem_filter.mpr
    ⟨Finset.mem_univ 0, by norm_num [rowSum, Fin.sum_univ_two, emC]⟩)
  rw [userLoop_ua_getD, hu]
  rfl

/-- C2 (amended): when some class has an undefined (NaN) user's accuracy
while its row sample count exceeds 1, the summation's exclusion rule — which
only drops classes with row total at most 1 — does not exclude it; the NaN
propagates, and the overall-accuracy variance, SE and CI half-width are all
undefined.  No exception is raised: every quantity is still produced, as a
NaN marker. -/
theorem overall_variance_nan_propagates {q : ℕ}
    (ap : Fin q → Fin q → Option ℚ) (em : Fin q → Fin q → ℚ)
    (w : Fin q → ℚ) (z : ℚ)
    (h : ∃ i, 1 < rowSum em i ∧ uAcc ap i = none) :
    (calculate_accuracy_metrics ap em w z).overall_accuracy_variance = none
    ∧ (calculate_accuracy_metrics ap em w z).overall_accuracy_se = none
    ∧ (calculate_accuracy_metrics ap em w z).overall_accuracy_ci_value
      = none := by
  obtain ⟨i, hn, hu⟩ := h
  have hv : overallVariance em w (userLoop ap em).ua = none := by
    unfold overallVariance
    apply nsum_eq_none _ _ (Finset.mem_filter.mpr ⟨Finset.mem_univ i, hn⟩)
    rw [userLoop_ua_getD, hu]
    rfl
  exact ⟨by rw [cam_overall_variance]; exact hv,
    by rw [cam_overall_se, hv]; rfl,
    by rw [cam_overall_civ, hv]; rfl⟩

/-- Witness for the amended C2 at `emC` with weights (0, 1). -/
theorem overall_variance_nan_propagates_witness :
    (∃ i, 1 < rowSum emC i
      ∧ uAcc (convert_to_area_proportion emC wB) i = none)
    ∧ ((calculate_accuracy_metrics (convert_to_area_proportion emC wB) emC wB
        3).overall_accuracy_variance = none
      ∧ (calculate_accuracy_metrics (convert_to_area_proportion emC wB) emC
        wB 3).overall_accuracy_se = none
      ∧ (calculate_accuracy_metrics (convert_to_area_proportion emC wB) emC
        wB 3).overall_accuracy_ci_value = none) := by
  have hex : ∃ i, 1 < rowSum emC i
      ∧ uAcc (convert_to_area_proportion emC wB) i = none := by
    refine ⟨0, by norm_num [rowSum, Fin.sum_univ_two, emC], ?_⟩
    have hcond : nsum Finset.univ
        (fun j => convert_to_area_proportion emC wB 0 j) = some 0 := by
      rw [nsum_univ_two]
      norm_num [convert_to_area_proportion, rowSum, Fin.sum_univ_two, emC,
        wB, nadd]
    unfold uAcc
    rw [if_pos hcond]
  exact ⟨hex, overall_variance_nan_propagates _ _ _ 3 hex⟩

/-- C7: each error-adjusted area is the total area times that class's column
sum of the area-proportion matrix; and when every error-matrix row total is
positive and the total mapped-pixel count is positive, the per-class
error-adjusted areas sum to exactly the total area. -/
theorem error_adjusted_area_spec {q : ℕ} (em : Fin q → Fin q → ℚ)
    (mapped : Fin q → ℚ) (A : ℚ) :
    (∀ (ap : Fin q → Fin q → Option ℚ) (j : Fin q) (s : ℚ),
      nsum Finset.univ (fun i => ap i j) = some s →
      calculate_error_adjusted_area ap A j = some (A * s))
    ∧ ((∀ i, 0 < rowSum em i) → 0 < ∑ k, mapped k →
      nsum Finset.univ
        (calculate_error_adjusted_area
          (convert_to_area_proportion em (fun i => mapped i / ∑ k, mapped k))
          A)
        = some A) := by
  constructor
  · intro ap j s hs
    unfold calculate_error_adjusted_area
    rw [hs]
    rfl
  · intro hr ht
    have hne : ∀ i, rowSum em i ≠ 0 := fun i => ne_of_gt (hr i)
    have htne : (∑ k, mapped k) ≠ 0 := ne_of_gt ht
    have hcol : ∀ j, nsum Finset.univ (fun i =>
        convert_to_area_proportion em (fun i => mapped i / ∑ k, mapped k) i j)
        = some (∑ i, mapped i / (∑ k, mapped k) * (em i j / rowSum em i)) :=
      fun j => nsum_eq_some _ _ _
        (fun i _ => by simp [convert_to_area_proportion, hne i])
    rw [nsum_eq_some _ _
      (fun j => A * ∑ i, mapped i / (∑ k, mapped k) * (em i j / rowSum em i))
      (fun j _ => by
        unfold calculate_error_adjusted_area
        rw [hcol j]
        rfl)]
    congr 1
    rw [← Finset.mul_sum, Finset.sum_comm]
    have hinner : ∀ i,
        (∑ j, mapped i / (∑ k, mapped k) * (em i j / rowSum em i))
          = mapped i / (∑ k, mapped k) := by
      intro i
      rw [← Finset.mul_sum, ← Finset.sum_div]
      have hrs : (∑ j, em i j) = rowSum em i := rfl
      rw [hrs, div_self (hne i), mul_one]
    rw [Finset.sum_congr rfl (fun i _ => hinner i), ← Finset.sum_div,
      div_self htne, mul_one]

/-- Witness for C7 at `emD` (all row totals positive) and counts (3, 1). -/
theorem error_adjusted_area_spec_witness :
    ((∀ i, 0 < rowSum emD i) ∧ (0:ℚ) < ∑ k, mappedA k)
    ∧ nsum Finset.univ
        (calculate_error_adjusted_area
          (convert_to_area_proportion emD
            (fun i => mappedA i / ∑ k, mappedA k))
          100)
        = some 100 :=
  ⟨⟨by norm_num [Fin.forall_fin_two, rowSum, Fin.sum_univ_two, emD],
      by norm_num [Fin.sum_univ_two, mappedA]⟩,
    (error_adjusted_area_spec emD mappedA 100).2
      (by norm_num [Fin.forall_fin_two, rowSum, Fin.sum_univ_two, emD])
      (by norm_num [Fin.sum_univ_two, mappedA])⟩

/-- C8: the accumulated `se_j_squared` is exactly the sum over rows with
total above 1 of `weight[i]²·(n_ij/n_i)(1-n_ij/n_i)/(n_i-1)` — rows with
total at most 1 contribute exactly 0, the accumulator being a plain number
that is never NaN — and the reported per-class standard error is the total
area times the square root of that sum. -/
theorem area_standard_error_spec {q : ℕ} (em : Fin q → Fin q → ℚ)
    (w : Fin q → ℚ) (est : Fin q → Option ℚ) (A z : ℚ) (j : Fin q) :
    seSq em w j
      = ∑ i ∈ Finset.univ.filter (fun i => 1 < rowSum em i),
          w i ^ 2 * (em i j / rowSum em i) * (1 - em i j / rowSum em i)
            / (rowSum em i - 1)
    ∧ (calculate_standard_error_and_ci em w est A z).standard_errors.getD
        j none
      = nmulR (some (A : ℝ)) (nsqrt (some (seSq em w j))) := by
  constructor
  · unfold seSq
    rw [foldl_if_add (fun i => 1 < rowSum em i)
      (fun i => w i ^ 2 * (em i j / rowSum em i) * (1 - em i j / rowSum em i)
        / (rowSum em i - 1)) (List.finRange q) 0]
    rw [zero_add, ← List.ofFn_eq_map, List.sum_ofFn, Finset.sum_filter]
  · rw [seci_standard_errors, ← List.ofFn_eq_map, getD_ofFn]

/-- C9: a class whose error-matrix row total is exactly 1 and whose weight
is positive gets a defined user's-accuracy value, while its SE and CI
half-width are undefined (NaN). -/
theorem single_sample_row_spec {q : ℕ} (em : Fin q → Fin q → ℚ)
    (w : Fin q → ℚ) (z : ℚ) (i : Fin q) (h1 : rowSum em i = 1)
    (hw : 0 < w i) :
    ((calculate_accuracy_metrics (convert_to_area_proportion em w) em w
        z).user_accuracy.getD i none).isSome = true
    ∧ (calculate_accuracy_metrics (convert_to_area_proportion em w) em w
        z).user_accuracy_se.getD i none = none
    ∧ (calculate_accuracy_metrics (convert_to_area_proportion em w) em w
        z).user_accuracy_ci_value.getD i none = none := by
  have hne : rowSum em i ≠ 0 := by rw [h1]; norm_num
  have hvar : uVar (convert_to_area_proportion em w) em i = none := by
    unfold uVar
    rw [if_neg]
    rw [h1]
    norm_num
  refine ⟨?_, ?_, ?_⟩
  · rw [cam_user_accuracy, userLoop_ua_getD,
      uAcc_convert_eq_ratio em w i hne (ne_of_gt hw)]
    rfl
  · rw [cam_user_se, userLoop_var, List.map_ofFn, getD_ofFn,
      Function.comp_apply, hvar]
    rfl
  · rw [cam_user_civ, userLoop_var, List.map_ofFn, getD_ofFn,
      Function.comp_apply, hvar]
    rfl

/-- Witness for C9 at `emE`, whose first row has total exactly 1, with
positive weight 1/2. -/
theorem single_sample_row_spec_witness :
    (rowSum emE 0 = 1 ∧ (0:ℚ) < wHalf 0)
    ∧ (((calculate_accuracy_metrics (convert_to_area_proportion emE wHalf)
        emE wHalf 2).user_accuracy.getD ((0 : Fin 2) : ℕ) none).isSome = true
      ∧ (calculate_accuracy_metrics (convert_to_area_proportion emE wHalf)
        emE wHalf 2).user_accuracy_se.getD ((0 : Fin 2) : ℕ) none = none
      ∧ (calculate_accuracy_metrics (convert_to_area_proportion emE wHalf)
        emE wHalf 2).user_accuracy_ci_value.getD ((0 : Fin 2) : ℕ) none
        = none) :=
  ⟨⟨by norm_num [rowSum, Fin.sum_univ_two, emE], by norm_num [wHalf]⟩,
    single_sample_row_spec emE wHalf 2 0
      (by norm_num [rowSum, Fin.sum_univ_two, emE]) (by norm_num [wHalf])⟩

/-- C1 (amended): for every column j with total above 1, the
producer's-accuracy variance computed by `calculate_accuracy_metrics` —
whose square root is the reported SE — equals the spec's formula with the
leftover user-loop values `U_{q-1}` and `n_{q-1}` used in the first
bracketed term and also as the sample size inside the Σ over i ≠ j (not the
contributing row's total). -/
theorem producer_variance_spec {q : ℕ} (em : Fin q → Fin q → ℚ)
    (w : Fin q → ℚ) (z : ℚ) (hq : 0 < q) (j : Fin q)
    (hj : 1 < colSum em j) :
    producerVariance (convert_to_area_proportion em w) em
        (userLoop (convert_to_area_proportion em w) em).lastU
        (userLoop (convert_to_area_proportion em w) em).lastN j
      = producerVarianceAmended (convert_to_area_proportion em w) em
          (uAcc (convert_to_area_proportion em w)
            ⟨q - 1, Nat.sub_lt hq Nat.one_pos⟩)
          (rowSum em ⟨q - 1, Nat.sub_lt hq Nat.one_pos⟩) j
    ∧ (calculate_accuracy_metrics (convert_to_area_proportion em w) em w
        z).producer_accuracy_se.getD j none
      = nsqrt (producerVarianceAmended (convert_to_area_proportion em w) em
          (uAcc (convert_to_area_proportion em w)
            ⟨q - 1, Nat.sub_lt hq Nat.one_pos⟩)
          (rowSum em ⟨q - 1, Nat.sub_lt hq Nat.one_pos⟩) j) := by
  have key : ∀ (ap : Fin q → Fin q → Option ℚ) (lu : Option ℚ) (ln : ℚ),
      producerVariance ap em lu ln j
        = producerVarianceAmended ap em lu ln j := by
    intro ap lu ln
    unfold producerVariance producerVarianceAmended
    congr 1
    congr 1
    rw [nmul_ndiv_assoc, nmul_assoc]
  constructor
  · rw [userLoop_lastU _ _ hq, userLoop_lastN _ _ hq]
    exact key _ _ _
  · rw [cam_producer_se, ← List.ofFn_eq_map, getD_ofFn]
    unfold pVarBranch
    rw [if_pos hj, userLoop_lastU _ _ hq, userLoop_lastN _ _ hq, key]

/-- C1 counterexample: at `emF` with equal weights, column 1 has total
4 > 1; the variance the script computes (the leftover row total 3 appears
inside the Σ term) is 1/324, while the claim's formula (the contributing
row's total, here 2, inside the Σ term) gives 1/144. -/
theorem producer_variance_claim_cex :
    (1:ℚ) < colSum emF 1
    ∧ producerVariance (convert_to_area_proportion emF wHalf) emF
        (userLoop (convert_to_area_proportion emF wHalf) emF).lastU
        (userLoop (convert_to_area_proportion emF wHalf) emF).lastN 1
      = some (1/324)
    ∧ producerVarianceClaimed (convert_to_area_proportion emF wHalf) emF
        (userLoop (convert_to_area_proportion emF wHalf) emF).lastU
        (userLoop (convert_to_area_proportion emF wHalf) emF).lastN 1
      = some (1/144) := by
  have hfr : List.finRange 2 = [0, 1] := by decide
  have hlastU : (userLoop (convert_to_area_proportion emF wHalf) emF).lastU
      = uAcc (convert_to_area_proportion emF wHalf) 1 := by
    unfold userLoop
    rw [hfr]
    rfl
  have hlastN : (userLoop (convert_to_area_proportion emF wHalf) emF).lastN
      = rowSum emF 1 := by
    unfold userLoop
    rw [hfr]
    rfl
  have hu : uAcc (convert_to_area_proportion emF wHalf) 1 = some 1 := by
    rw [uAcc_convert_eq_ratio emF wHalf 1
      (by norm_num [rowSum, Fin.sum_univ_two, emF]) (by norm_num [wHalf])]
    norm_num [rowSum, Fin.sum_univ_two, emF]
  have hn : rowSum emF 1 = 3 := by norm_num [rowSum, Fin.sum_univ_two, emF]
  have hn0 : rowSum emF 0 = 2 := by norm_num [rowSum, Fin.sum_univ_two, emF]
  have hP : pAcc (convert_to_area_proportion emF wHalf) 1 = some (2/3) := by
    have hcol : nsum Finset.univ
        (fun i => convert_to_area_proportion emF wHalf i 1)
        = some (3/4) := by
      rw [nsum_univ_two]
      norm_num [convert_to_area_proportion, rowSum, Fin.sum_univ_two, emF,
        wHalf, nadd]
    unfold pAcc
    rw [hcol, if_neg (by norm_num)]
    norm_num [convert_to_area_proportion, rowSum, Fin.sum_univ_two, emF,
      wHalf, ndiv]
  have hfilter : Finset.univ.filter (fun i => i ≠ (1 : Fin 2)) = {0} := by
    decide
  refine ⟨by norm_num [colSum, Fin.sum_univ_two, emF], ?_, ?_⟩
  · unfold producerVariance
    rw [hlastU, hlastN, hu, hP, hfilter, nsum_singleton, hn]
    norm_num [colSum, Fin.sum_univ_two, emF, nmul, nadd, nsub, ndiv]
  · unfold producerVarianceClaimed
    rw [hlastU, hlastN, hu, hP, hfilter, nsum_singleton, hn, hn0]
    norm_num [colSum, Fin.sum_univ_two, emF, nmul, nadd, nsub, ndiv]

/-- Witness for the amended C1 at `emF` with equal weights, column 1. -/
theorem producer_variance_spec_witness :
    (0 < 2 ∧ (1:ℚ) < colSum emF 1)
    ∧ (producerVariance (convert_to_area_proportion emF wHalf) emF
        (userLoop (convert_to_area_proportion emF wHalf) emF).lastU
        (userLoop (convert_to_area_proportion emF wHalf) emF).lastN 1
      = producerVarianceAmended (convert_to_area_proportion emF wHalf) emF
          (uAcc (convert_to_area_proportion emF wHalf) 1) (rowSum emF 1) 1
      ∧ (calculate_accuracy_metrics (convert_to_area_proportion emF wHalf)
          emF wHalf 2).producer_accuracy_se.getD ((1 : Fin 2) : ℕ) none
        = nsqrt (producerVarianceAmended
            (convert_to_area_proportion emF wHalf) emF
            (uAcc (convert_to_area_proportion emF wHalf) 1) (rowSum emF 1)
            1)) :=
  ⟨⟨by norm_num, by norm_num [colSum, Fin.sum_univ_two, emF]⟩,
    producer_variance_spec emF wHalf 2 (by norm_num) 1
      (by norm_num [colSum, Fin.sum_univ_two, emF])⟩

/-- C10: every sample-size occurrence in the producer's-accuracy variance is
the leftover `n_i_dot` of the user's-accuracy loop — the row total of the
last class, index q-1 — including inside the Σ over i ≠ j: the reported SE
entry is the square root of `producerVariance` evaluated at the class-(q-1)
leftover values, and that expression reads the error matrix only through
column j and the given leftover sample size, never through a contributing
row's total. -/
theorem producer_variance_leftover {q : ℕ} (ap : Fin q → Fin q → Option ℚ)
    (em : Fin q → Fin q → ℚ) (w : Fin q → ℚ) (z : ℚ) (hq : 0 < q)
    (j : Fin q) (hj : 1 < colSum em j) :
    (calculate_accuracy_metrics ap em w z).producer_accuracy_se.getD j none
      = nsqrt (producerVariance ap em
          (uAcc ap ⟨q - 1, Nat.sub_lt hq Nat.one_pos⟩)
          (rowSum em ⟨q - 1, Nat.sub_lt hq Nat.one_pos⟩) j)
    ∧ ∀ (em2 : Fin q → Fin q → ℚ) (lu : Option ℚ) (ln : ℚ),
        (∀ i, em2 i j = em i j) →
        producerVariance ap em2 lu ln j = producerVariance ap em lu ln j := by
  constructor
  · rw [cam_producer_se, ← List.ofFn_eq_map, getD_ofFn]
    unfold pVarBranch
    rw [if_pos hj, userLoop_lastU ap em hq, userLoop_lastN ap em hq]
  · intro em2 lu ln hcol
    unfold producerVariance
    have hc : colSum em2 j = colSum em j :=
      Finset.sum_congr rfl (fun i _ => hcol i)
    rw [hc]
    congr 1
    congr 1
    congr 1
    apply nsum_congr
    intro i _
    rw [hcol i]

/-- Witness for C10 at `emC` with weights (0, 1), column 1. -/
theorem producer_variance_leftover_witness :
    (0 < 2 ∧ (1:ℚ) < colSum emC 1)
    ∧ ((calculate_accuracy_metrics (convert_to_area_proportion emC wB) emC
        wB 2).producer_accuracy_se.getD ((1 : Fin 2) : ℕ) none
      = nsqrt (producerVariance (convert_to_area_proportion emC wB) emC
          (uAcc (convert_to_area_proportion emC wB) 1) (rowSum emC 1) 1)
      ∧ ∀ (em2 : Fin 2 → Fin 2 → ℚ) (lu : Option ℚ) (ln : ℚ),
          (∀ i, em2 i 1 = emC i 1) →
          producerVariance (convert_to_area_proportion emC wB) em2 lu ln 1
            = producerVariance (convert_to_area_proportion emC wB) emC lu ln
                1) :=
  ⟨⟨by norm_num, by norm_num [colSum, Fin.sum_univ_two, emC]⟩,
    producer_variance_leftover (convert_to_area_proportion emC wB) emC wB 2
      (by norm_num) 1 (by norm_num [colSum, Fin.sum_univ_two, emC])⟩

end MultiLC
